import Mathlib

/-!
# Verification of `hive_api_map.py`

A shallow embedding of the public-API mapper script
`src/skills/hive-expert/scripts/hive_api_map.py` and proofs of the
specification claims about it.

The script scans Swift source files with the regex

  `^public\s+(?:final\s+)?(struct|enum|protocol|class|actor|typealias|func|var|let)\s+([A-Za-z_]\w*)`

applied with `re.match` (anchored at the start of each line), collects
`Decl(kind, name, file, line)` records, deduplicates them by `(kind, name)`
keeping the first occurrence, sorts by `(kind, name)` and renders at most 60
entries per module plus an overflow summary line.

Modelling conventions:
* file-system paths are lists of path segments (`FsPath`);
* a file's decoded text is given as its list of lines (`List String`);
  splitting text into lines is abstracted away, since no claim depends on
  the exact line-terminator semantics;
* Python's `\s` class is modelled over its ASCII fragment
  (`Char.isWhitespace`); `\w`, which is Unicode-aware in the source regex,
  is modelled as ASCII letters/digits/underscore plus the Greek letter
  ranges — the non-ASCII fragment this development exercises (match success
  never consults `\w`; only the extent of the captured name does);
* Python string comparison (code-point lexicographic) coincides with Lean's
  `String` linear order.
-/

namespace HiveApiMap

/-- A filesystem path, as its list of segments. -/
abbrev FsPath := List String

/-- Model of the regex class `\s` (ASCII fragment). -/
def isSpace (c : Char) : Bool := c.isWhitespace

/-- Model of the non-ASCII part of the regex class `\w`.  `PUBLIC_DECL_RE`
is compiled without `re.ASCII`, so `\w` is Unicode-aware: it accepts every
Unicode alphanumeric character, not just `[A-Za-z0-9_]`.  The full Unicode
alphanumeric table is out of scope for the embedding; this covers the
Greek letter ranges (capital `Α`–`Ω`, skipping the unassigned code point
U+03A2, and small `α`–`ω`), which are genuinely word characters in Python,
and is `false` on other non-ASCII characters.  No theorem's truth depends
on the class beyond this fragment: match success never consults `\w`, only
the extent of the captured name does. -/
def isGreekLetter (c : Char) : Bool :=
  (0x391 ≤ c.toNat && c.toNat ≤ 0x3A9 && c.toNat ≠ 0x3A2) ||
    (0x3B1 ≤ c.toNat && c.toNat ≤ 0x3C9)

/-- Model of the regex class `\w` (Unicode-aware): ASCII letters, digits
and underscore, plus non-ASCII word characters (modelled on the
Greek-letter fragment). -/
def isWordChar (c : Char) : Bool := c.isAlphanum || c = '_' || isGreekLetter c

/-- First character of the identifier group: `[A-Za-z_]`. -/
def isIdentStart (c : Char) : Bool := c.isAlpha || c = '_'

/-- The declaration-kind alternation of `PUBLIC_DECL_RE`, in regex order:
`struct|enum|protocol|class|actor|typealias|func|var|let`. -/
def kindKeywords : List String :=
  ["struct", "enum", "protocol", "class", "actor", "typealias", "func", "var", "let"]

/-- Consume the literal `lit` at the front of `s`
(regex literal match): `some rest` iff `s = lit ++ rest`. -/
def dropLit? : List Char → List Char → Option (List Char)
  | [], s => some s
  | _ :: _, [] => none
  | p :: ps, c :: cs => if p = c then dropLit? ps cs else none

/-- Consume `\s+` (greedy, at least one whitespace character). -/
def eatSpaces1? (s : List Char) : Option (List Char) :=
  match s with
  | [] => none
  | c :: cs => if isSpace c then some (cs.dropWhile isSpace) else none

/-- Consume the identifier group `([A-Za-z_]\w*)` (greedy), returning it. -/
def matchIdent (s : List Char) : Option String :=
  match s with
  | [] => none
  | c :: cs => if isIdentStart c then some (String.mk (c :: cs.takeWhile isWordChar)) else none

/-- Try one declaration-kind keyword: the literal keyword, then `\s+`,
then the identifier group. -/
def tryKind (k : String) (s : List Char) : Option (String × String) :=
  (dropLit? k.data s).bind fun r₁ =>
    (eatSpaces1? r₁).bind fun r₂ =>
      (matchIdent r₂).map fun n => (k, n)

/-- The kind alternation, tried left to right as the regex engine does. -/
def matchKindFrom : List String → List Char → Option (String × String)
  | [], _ => none
  | k :: ks, s =>
    match tryKind k s with
    | some out => some out
    | none => matchKindFrom ks s

/-- Pattern `(struct|enum|protocol|class|actor|typealias|func|var|let)\s+([A-Za-z_]\w*)`. -/
def matchKindName (s : List Char) : Option (String × String) :=
  matchKindFrom kindKeywords s

/-- The pattern tail `(?:final\s+)?(kind)\s+([A-Za-z_]\w*)` at position `r₂`:
the optional group is tried greedily first, with backtracking to the empty
alternative, exactly as the regex engine behaves. -/
def afterSpaces (r₂ : List Char) : Option (String × String) :=
  match (dropLit? "final".data r₂).bind eatSpaces1? with
  | some r₃ =>
    match matchKindName r₃ with
    | some out => some out
    | none => matchKindName r₂
  | none => matchKindName r₂

/-- Model of `PUBLIC_DECL_RE.match(line)`: the full anchored pattern
`^public\s+(?:final\s+)?(kind)\s+([A-Za-z_]\w*)`, returning the two capture
groups `(kind, name)` on success. -/
def matchPublicDecl (line : String) : Option (String × String) :=
  (dropLit? "public".data line.data).bind fun r₁ =>
    (eatSpaces1? r₁).bind fun r₂ => afterSpaces r₂

/-- The `Decl` dataclass of the script. -/
structure Decl where
  kind : String
  name : String
  file : FsPath
  line : Nat
deriving DecidableEq, Repr

/-- The loop body of `scan_file`: `for idx, line in enumerate(text.splitlines(),
start=1)`, appending a `Decl` for each line matched by `PUBLIC_DECL_RE`.
`i` is the 1-based number of the first line of `lines`. -/
def scanLinesFrom (path : FsPath) : Nat → List String → List Decl
  | _, [] => []
  | i, l :: ls =>
    match matchPublicDecl l with
    | some kn => ⟨kn.1, kn.2, path, i⟩ :: scanLinesFrom path (i + 1) ls
    | none => scanLinesFrom path (i + 1) ls

/-- Model of `scan_file`, over the file's decoded lines. -/
def scan_file (path : FsPath) (lines : List String) : List Decl :=
  scanLinesFrom path 1 lines

/-! ## Reading a file: the `try`/`except UnicodeDecodeError` of `scan_file`

`path.read_text(encoding="utf-8")` can succeed, fail with a
`UnicodeDecodeError` (in which case the file is re-read with
`errors="replace"`, which always yields text), or fail with any other
`OSError`.  The outcome of the read is modelled as a `ReadResult`. -/

/-- Outcome of `path.read_text(encoding="utf-8")` on one file. -/
inductive ReadResult where
  /-- The read decoded cleanly, yielding these lines. -/
  | success (lines : List String)
  /-- The read raised `UnicodeDecodeError`; re-reading with
  `errors="replace"` yields these (replacement-character) lines. -/
  | decodeError (replacedLines : List String)
  /-- The read raised a non-decoding error (permissions, disappearance). -/
  | osError (msg : String)
deriving DecidableEq, Repr

/-- Model of `scan_file` including its read/recover logic: only `UnicodeDecodeError`
is caught; any other error propagates. -/
def scan_file_read (path : FsPath) (r : ReadResult) : Except String (List Decl) :=
  match r with
  | .success ls => .ok (scan_file path ls)
  | .decodeError ls => .ok (scan_file path ls)
  | .osError e => .error e

/-! ## File discovery (`iter_swift_files`) -/

/-- A source file in the model: its path and its decoded lines. -/
structure SwiftFile where
  path : FsPath
  lines : List String
deriving DecidableEq, Repr

/-- Model of `str.lower()` on a path segment (ASCII fragment), character by
character. -/
def lowerSeg (s : String) : String :=
  String.mk (s.data.map Char.toLower)

/-- The name filter of `sources_root.rglob("*.swift")`: the file's base name
ends in `.swift`. -/
def isSwiftName (p : FsPath) : Bool :=
  match p.getLast? with
  | some s => ".swift".data.isSuffixOf s.data
  | none => false

/-- The exclusion test of `iter_swift_files`:
`parts = {p.lower() for p in path.parts}; ".build" in parts or ".swiftpm" in parts`. -/
def isExcludedPath (p : FsPath) : Bool :=
  p.any fun seg => lowerSeg seg == ".build" || lowerSeg seg == ".swiftpm"

/-- Model of `iter_swift_files(sources_root)`: `rglob("*.swift")` over the subtree's
files (modelled as the name filter on the given snapshot list), skipping
excluded paths.  The snapshot list is the recursive enumeration of all files
under the directory, in the traversal order `rglob` produces. -/
def iter_swift_files (files : List SwiftFile) : List SwiftFile :=
  files.filter fun f => isSwiftName f.path && !isExcludedPath f.path

/-! ## Aggregation (`main`'s per-module loop) -/

/-- The deduplication key: `(d.kind, d.name)`. -/
def declKey (d : Decl) : String × String := (d.kind, d.name)

/-- The `seen`-set deduplication loop of `main`, with the `seen` set
modelled as the list of keys inserted so far. -/
def dedupFrom (seen : List (String × String)) : List Decl → List Decl
  | [] => []
  | d :: ds =>
    if declKey d ∈ seen then dedupFrom seen ds
    else d :: dedupFrom (declKey d :: seen) ds

/-- De-dupe by `(kind, name)`, keeping the first occurrence of each key. -/
def dedupByKey (l : List Decl) : List Decl := dedupFrom [] l

/-- Python's ordering on the `(kind, name)` tuples: lexicographic, with
code-point string comparison on each component. -/
def keyLe (x y : String × String) : Prop :=
  x.1 < y.1 ∨ (x.1 = y.1 ∧ x.2 ≤ y.2)

instance : DecidableRel keyLe := fun x y => by
  unfold keyLe; infer_instance

instance : IsTrans (String × String) keyLe where
  trans x y z hxy hyz := by
    unfold keyLe at *
    rcases hxy with hxy | ⟨hxy, hxy'⟩
    · rcases hyz with hyz | ⟨hyz, _⟩
      · exact Or.inl (hxy.trans hyz)
      · exact Or.inl (hyz ▸ hxy)
    · rcases hyz with hyz | ⟨hyz, hyz'⟩
      · exact Or.inl (hxy ▸ hyz)
      · exact Or.inr ⟨hxy.trans hyz, hxy'.trans hyz'⟩

instance : IsAntisymm (String × String) keyLe where
  antisymm x y hxy hyx := by
    unfold keyLe at *
    rcases hxy with hxy | ⟨hxy, hxy'⟩
    · rcases hyx with hyx | ⟨hyx, _⟩
      · exact absurd (hxy.trans hyx) (lt_irrefl _)
      · exact absurd hxy (hyx ▸ lt_irrefl _)
    · rcases hyx with hyx | ⟨hyx, hyx'⟩
      · exact absurd hyx (hxy ▸ lt_irrefl _)
      · exact Prod.ext hxy (le_antisymm hxy' hyx')

/-- The sort order of `unique.sort(key=lambda d: (d.kind, d.name))`. -/
def declLe (a b : Decl) : Prop := keyLe (declKey a) (declKey b)

instance : DecidableRel declLe := fun a b => by
  unfold declLe; infer_instance

instance : IsTotal Decl declLe where
  total a b := by
    unfold declLe keyLe
    rcases lt_trichotomy (declKey a).1 (declKey b).1 with h | h | h
    · exact Or.inl (Or.inl h)
    · rcases le_total (declKey a).2 (declKey b).2 with h' | h'
      · exact Or.inl (Or.inr ⟨h, h'⟩)
      · exact Or.inr (Or.inr ⟨h.symm, h'⟩)
    · exact Or.inr (Or.inl h)

instance : IsTrans Decl declLe where
  trans a b c hab hbc := IsTrans.trans (declKey a) (declKey b) (declKey c) hab hbc

/-- Model of `unique.sort(key=lambda d: (d.kind, d.name))`.  After deduplication the
keys are pairwise distinct, so any comparison sort by `declLe` produces the
same list as Python's stable sort. -/
def sortDecls (l : List Decl) : List Decl := List.insertionSort declLe l

/-! ## Rendering (the listing portion of `main`'s output) -/

/-- One line of the per-module declaration listing. -/
inductive OutLine where
  /-- An entry line ``- `kind name` (file:line)`` for one declaration. -/
  | entry (d : Decl)
  /-- The line `- ... (k more)`: the overflow summary. -/
  | more (k : Nat)
deriving DecidableEq, Repr

/-- Is this output line a declaration entry? -/
def OutLine.isEntry : OutLine → Bool
  | .entry _ => true
  | .more _ => false

/-- Is this output line the overflow summary? -/
def OutLine.isMore : OutLine → Bool
  | .entry _ => false
  | .more _ => true

/-- The declaration-listing part of `main`'s per-module output:
`if not unique: continue`, then one entry per element of `unique[:60]`,
then `- ... (len(unique) - 60 more)` when `len(unique) > 60`. -/
def renderListing (unique : List Decl) : List OutLine :=
  if unique.isEmpty then []
  else
    (unique.take 60).map OutLine.entry ++
      (if unique.length > 60 then [OutLine.more (unique.length - 60)] else [])

/-! ## Per-module processing and `main` -/

/-- A module directory: its base name and the snapshot of all files in its
subtree (what `rglob` traverses), in traversal order. -/
structure Module where
  name : String
  files : List SwiftFile
deriving Repr

/-- Everything `main` prints about one module, structured. -/
structure ModuleReport where
  name : String
  filesScanned : Nat
  uniqueCount : Nat
  listing : List OutLine
deriving Repr

/-- The list `decls`: all declarations extracted from a module's eligible files, in
file-iteration order. -/
def moduleDecls (files : List SwiftFile) : List Decl :=
  (iter_swift_files files).flatMap fun f => scan_file f.path f.lines

/-- The list `unique`: the module's declarations after the `seen`-set deduplication. -/
def moduleUnique (files : List SwiftFile) : List Decl :=
  dedupByKey (moduleDecls files)

/-- The list `unique` after `unique.sort(key=lambda d: (d.kind, d.name))`. -/
def moduleSorted (files : List SwiftFile) : List Decl :=
  sortDecls (moduleUnique files)

/-- Body of `main`'s per-module loop: discover, scan, de-dupe, sort,
count files by a second discovery pass, render. -/
def processModule (m : Module) : ModuleReport :=
  { name := m.name
    filesScanned := (iter_swift_files m.files).length
    uniqueCount := (moduleSorted m.files).length
    listing := renderListing (moduleSorted m.files) }

/-- The derived sources root `<root>/libs/hive/Sources`. -/
def sourcesRootOf (root : FsPath) : FsPath := root ++ ["libs", "hive", "Sources"]

/-- Model of `main`: if the sources root does not exist the script raises
`SystemExit(message)` — exit status 1, message on stderr, nothing printed —
otherwise it prints the full report (modules in name order) and returns 0.
`pathExists` is the filesystem's `Path.exists` and `modules` the sorted
module listing of the sources root. -/
def main (root : FsPath) (pathExists : FsPath → Bool) (modules : List Module) :
    Except String (List ModuleReport × Nat) :=
  if pathExists (sourcesRootOf root) then
    .ok (modules.map processModule, 0)
  else
    .error ("Expected Swift sources at: " ++ String.intercalate "/" (sourcesRootOf root))

/-- The process exit status: `raise SystemExit(str)` exits with status 1;
a normal return exits with the returned code. -/
def exitStatus (r : Except String (List ModuleReport × Nat)) : Nat :=
  match r with
  | .error _ => 1
  | .ok (_, c) => c

/-! ## The matching rule as the spec words it

`SpecShapeData s` is the decomposition the spec describes, anchored at the
very start of `s`: the keyword `public`, whitespace, an optional `final`
qualifier followed by whitespace, a declaration-kind keyword, whitespace,
then an identifier-start character; any trailing content is allowed.
`ClaimC1Shape` additionally allows leading whitespace before `public`,
which is what the claim C1 asserts. -/

/-- The declaration-line shape, anchored at the start of the character list. -/
def SpecShapeData (s : List Char) : Prop :=
  ∃ (ws₁ fp : List Char) (kind : String) (ws₂ : List Char) (c₀ : Char) (rest : List Char),
    s = "public".data ++ ws₁ ++ fp ++ kind.data ++ ws₂ ++ c₀ :: rest ∧
    ws₁ ≠ [] ∧ (∀ c ∈ ws₁, isSpace c = true) ∧
    (fp = [] ∨ ∃ ws, fp = "final".data ++ ws ∧ ws ≠ [] ∧ ∀ c ∈ ws, isSpace c = true) ∧
    kind ∈ kindKeywords ∧
    ws₂ ≠ [] ∧ (∀ c ∈ ws₂, isSpace c = true) ∧
    isIdentStart c₀ = true

/-- The shape claim C1 asserts: the declaration-line shape after *any
leading whitespace*. -/
def ClaimC1Shape (line : String) : Prop :=
  ∃ ws₀ s, line.data = ws₀ ++ s ∧ (∀ c ∈ ws₀, isSpace c = true) ∧ SpecShapeData s

/-- The kind-and-identifier tail shape recognised by `matchKindName`. -/
def KindShape (s : List Char) : Prop :=
  ∃ (kind : String) (ws₂ : List Char) (c₀ : Char) (rest : List Char),
    s = kind.data ++ ws₂ ++ c₀ :: rest ∧
    kind ∈ kindKeywords ∧
    ws₂ ≠ [] ∧ (∀ c ∈ ws₂, isSpace c = true) ∧
    isIdentStart c₀ = true

/-- The shape of a captured name: first character `[A-Za-z_]`, subsequent
characters in the regex word class `\w` (Unicode-aware). -/
def isIdentString (s : String) : Bool :=
  match s.data with
  | [] => false
  | c :: cs => isIdentStart c && cs.all isWordChar

/-- The purely ASCII identifier shape `[A-Za-z_][A-Za-z0-9_]*`, which the
claim asserts for every captured name. -/
def isAsciiIdentString (s : String) : Bool :=
  match s.data with
  | [] => false
  | c :: cs => isIdentStart c && cs.all fun x => x.isAlphanum || x = '_'

/-! ### Correctness lemmas for the matcher primitives -/

theorem dropLit?_eq_some {ps s r : List Char} :
    dropLit? ps s = some r ↔ s = ps ++ r := by
  induction ps generalizing s with
  | nil => simp [dropLit?]
  | cons p ps ih =>
    cases s with
    | nil => simp [dropLit?]
    | cons c cs =>
      by_cases hpc : p = c
      · subst hpc
        simp [dropLit?, ih]
      · simp [dropLit?, hpc, Ne.symm hpc]

theorem identStart_not_space {c : Char} (h : isIdentStart c = true) :
    isSpace c = false := by
  by_contra hne
  rw [Bool.not_eq_false] at hne
  simp [isSpace, Char.isWhitespace] at hne
  rcases hne with ((h₁ | h₁) | h₁) | h₁ <;> subst h₁ <;> simp [isIdentStart] at h

/-- Every declaration-kind keyword is nonempty and starts with a
non-whitespace character. -/
theorem kindHead {k : String} (hk : k ∈ kindKeywords) :
    ∃ c cs, k.data = c :: cs ∧ isSpace c = false := by
  fin_cases hk <;> exact ⟨_, _, rfl, by decide⟩

theorem dropWhile_space_append {ws rest : List Char} {c : Char}
    (hws : ∀ x ∈ ws, isSpace x = true) (hc : isSpace c = false) :
    (ws ++ c :: rest).dropWhile isSpace = c :: rest := by
  induction ws with
  | nil => simp [List.dropWhile, hc]
  | cons w ws ih =>
    have hw : isSpace w = true := hws w (by simp)
    simp only [List.cons_append, List.dropWhile, hw]
    exact ih fun x hx => hws x (by simp [hx])

theorem eatSpaces1?_of_shape {ws rest : List Char} {c : Char}
    (hne : ws ≠ []) (hws : ∀ x ∈ ws, isSpace x = true) (hc : isSpace c = false) :
    eatSpaces1? (ws ++ c :: rest) = some (c :: rest) := by
  cases ws with
  | nil => exact absurd rfl hne
  | cons w ws =>
    have hw : isSpace w = true := hws w (by simp)
    simp only [List.cons_append, eatSpaces1?, hw, if_true]
    exact congrArg some (dropWhile_space_append (fun x hx => hws x (by simp [hx])) hc)

theorem eatSpaces1?_eq_some {s r : List Char} (h : eatSpaces1? s = some r) :
    ∃ ws, s = ws ++ r ∧ ws ≠ [] ∧ ∀ x ∈ ws, isSpace x = true := by
  cases s with
  | nil => simp [eatSpaces1?] at h
  | cons c cs =>
    by_cases hc : isSpace c = true
    · simp only [eatSpaces1?, hc, if_true, Option.some.injEq] at h
      refine ⟨c :: cs.takeWhile isSpace, ?_, by simp, ?_⟩
      · rw [← h, List.cons_append, List.takeWhile_append_dropWhile]
      · intro x hx
        rcases List.mem_cons.mp hx with hx | hx
        · exact hx ▸ hc
        · exact List.mem_takeWhile_imp hx
    · simp only [eatSpaces1?, hc, if_false] at h
      simp at hc
      simp [hc] at h

theorem matchIdent_isSome {s : List Char} :
    (matchIdent s).isSome = true ↔ ∃ c rest, s = c :: rest ∧ isIdentStart c = true := by
  cases s with
  | nil => simp [matchIdent]
  | cons c cs =>
    by_cases hc : isIdentStart c = true
    · constructor
      · intro _; exact ⟨c, cs, rfl, hc⟩
      · intro _; simp [matchIdent, hc]
    · simp only [Bool.not_eq_true] at hc
      simp [matchIdent, hc]

theorem tryKind_shape_of_eq_some {k : String} {s : List Char} {out : String × String}
    (h : tryKind k s = some out) :
    out.1 = k ∧ ∃ (ws₂ : List Char) (c₀ : Char) (rest : List Char),
      s = k.data ++ ws₂ ++ c₀ :: rest ∧
      ws₂ ≠ [] ∧ (∀ x ∈ ws₂, isSpace x = true) ∧ isIdentStart c₀ = true := by
  unfold tryKind at h
  cases hd : dropLit? k.data s with
  | none => rw [hd] at h; simp at h
  | some r₁ =>
    rw [hd] at h
    simp only [Option.some_bind] at h
    cases he : eatSpaces1? r₁ with
    | none => rw [he] at h; simp at h
    | some r₂ =>
      rw [he] at h
      simp only [Option.some_bind] at h
      cases hm : matchIdent r₂ with
      | none => rw [hm] at h; simp at h
      | some n =>
        rw [hm] at h
        simp only [Option.map_some', Option.some.injEq] at h
        obtain ⟨ws₂, hr₁, hne, hall⟩ := eatSpaces1?_eq_some he
        have hr₂ : ∃ c rest, r₂ = c :: rest ∧ isIdentStart c = true :=
          matchIdent_isSome.mp (by simp [hm])
        obtain ⟨c₀, rest, hc, hcid⟩ := hr₂
        refine ⟨by rw [← h], ws₂, c₀, rest, ?_, hne, hall, hcid⟩
        rw [dropLit?_eq_some.mp hd, hr₁, hc, List.append_assoc]

theorem tryKind_isSome_of_shape {k : String} {ws₂ rest : List Char} {c₀ : Char}
    (hne : ws₂ ≠ []) (hall : ∀ x ∈ ws₂, isSpace x = true) (hc : isIdentStart c₀ = true) :
    (tryKind k (k.data ++ ws₂ ++ c₀ :: rest)).isSome = true := by
  unfold tryKind
  rw [List.append_assoc]
  rw [dropLit?_eq_some.mpr rfl]
  simp only [Option.some_bind]
  rw [eatSpaces1?_of_shape hne hall (identStart_not_space hc)]
  simp [matchIdent, hc]

theorem matchKindFrom_isSome_iff {ks : List String} {s : List Char} :
    (matchKindFrom ks s).isSome = true ↔ ∃ k ∈ ks, (tryKind k s).isSome = true := by
  induction ks with
  | nil => simp [matchKindFrom]
  | cons k ks ih =>
    cases hk : tryKind k s with
    | some out => simp [matchKindFrom, hk]
    | none =>
      simp only [matchKindFrom, hk, ih]
      constructor
      · rintro ⟨q, hq, hsome⟩
        exact ⟨q, List.mem_cons_of_mem _ hq, hsome⟩
      · rintro ⟨q, hq, hsome⟩
        rcases List.mem_cons.mp hq with rfl | hq
        · rw [hk] at hsome; simp at hsome
        · exact ⟨q, hq, hsome⟩

theorem matchKindName_isSome_iff {s : List Char} :
    (matchKindName s).isSome = true ↔ KindShape s := by
  unfold matchKindName KindShape
  rw [matchKindFrom_isSome_iff]
  constructor
  · rintro ⟨k, hk, hsome⟩
    obtain ⟨out, hout⟩ := Option.isSome_iff_exists.mp hsome
    obtain ⟨-, ws₂, c₀, rest, hs, hne, hall, hcid⟩ := tryKind_shape_of_eq_some hout
    exact ⟨k, ws₂, c₀, rest, hs, hk, hne, hall, hcid⟩
  · rintro ⟨k, ws₂, c₀, rest, hs, hk, hne, hall, hcid⟩
    exact ⟨k, hk, hs ▸ tryKind_isSome_of_shape hne hall hcid⟩

/-- If the kind alternation already matches at `r₂`, the pattern tail
matches at `r₂`, whatever the optional `final` group does. -/
theorem afterSpaces_isSome_left {r₂ : List Char} (h : (matchKindName r₂).isSome = true) :
    (afterSpaces r₂).isSome = true := by
  unfold afterSpaces
  split
  · split
    · rfl
    · exact h
  · exact h

/-- If the `final` group consumes successfully and the kind alternation
matches after it, the pattern tail matches at `r₂`. -/
theorem afterSpaces_isSome_final {r₂ r₃ : List Char}
    (hf : (dropLit? "final".data r₂).bind eatSpaces1? = some r₃)
    (h : (matchKindName r₃).isSome = true) :
    (afterSpaces r₂).isSome = true := by
  unfold afterSpaces
  split
  next r₃' hf' =>
    have hr : r₃' = r₃ := Option.some.inj (hf' ▸ hf)
    subst hr
    split
    next out hm => rfl
    next hm => rw [hm] at h; simp at h
  next hf' => rw [hf'] at hf; simp at hf

/-- A successful pattern-tail match decomposes: either the kind alternation
matches directly at `r₂`, or `r₂` starts with `final` plus whitespace and
the kind alternation matches after it. -/
theorem afterSpaces_shape {r₂ : List Char} (h : (afterSpaces r₂).isSome = true) :
    KindShape r₂ ∨
      ∃ ws r₃, r₂ = "final".data ++ ws ++ r₃ ∧ ws ≠ [] ∧
        (∀ c ∈ ws, isSpace c = true) ∧ KindShape r₃ := by
  unfold afterSpaces at h
  split at h
  next r₃ hf =>
    split at h
    next out hm =>
      right
      cases hdf : dropLit? "final".data r₂ with
      | none => rw [hdf] at hf; simp at hf
      | some rf =>
        rw [hdf] at hf
        simp only [Option.some_bind] at hf
        obtain ⟨ws, hrf, hwsne, hws⟩ := eatSpaces1?_eq_some hf
        refine ⟨ws, r₃, ?_, hwsne, hws, matchKindName_isSome_iff.mp (by rw [hm]; rfl)⟩
        rw [dropLit?_eq_some.mp hdf, hrf, List.append_assoc]
    next hm => exact Or.inl (matchKindName_isSome_iff.mp h)
  next hf => exact Or.inl (matchKindName_isSome_iff.mp h)

/-- Soundness and completeness of the embedded `PUBLIC_DECL_RE` match:
it succeeds exactly on lines of the anchored declaration shape. -/
theorem matchPublicDecl_isSome_iff {line : String} :
    (matchPublicDecl line).isSome = true ↔ SpecShapeData line.data := by
  constructor
  · intro h
    unfold matchPublicDecl at h
    cases hd : dropLit? "public".data line.data with
    | none => rw [hd] at h; simp at h
    | some r₁ =>
      rw [hd] at h
      simp only [Option.some_bind] at h
      cases he : eatSpaces1? r₁ with
      | none => rw [he] at h; simp at h
      | some r₂ =>
        rw [he] at h
        simp only [Option.some_bind] at h
        obtain ⟨ws₁, hr₁, hws₁ne, hws₁⟩ := eatSpaces1?_eq_some he
        have hline : line.data = "public".data ++ ws₁ ++ r₂ := by
          rw [dropLit?_eq_some.mp hd, hr₁, List.append_assoc]
        rcases afterSpaces_shape h with
          ⟨kind, ws₂, c₀, rest, hr₂, hk, hne₂, hall₂, hcid⟩ |
          ⟨ws, r₃, hr₂, hwsne, hws, kind, ws₂, c₀, rest, hr₃, hk, hne₂, hall₂, hcid⟩
        · refine ⟨ws₁, [], kind, ws₂, c₀, rest, ?_, hws₁ne, hws₁,
            Or.inl rfl, hk, hne₂, hall₂, hcid⟩
          rw [hline, hr₂]; simp
        · refine ⟨ws₁, "final".data ++ ws, kind, ws₂, c₀, rest, ?_, hws₁ne, hws₁,
            Or.inr ⟨ws, rfl, hwsne, hws⟩, hk, hne₂, hall₂, hcid⟩
          rw [hline, hr₂, hr₃]; simp
  · rintro ⟨ws₁, fp, kind, ws₂, c₀, rest, hline, hne₁, hall₁, hfp, hk, hne₂, hall₂, hcid⟩
    obtain ⟨kc, kcs, hkd, hkc⟩ := kindHead hk
    have hkcons : kind.data ++ ws₂ ++ c₀ :: rest = kc :: (kcs ++ ws₂ ++ c₀ :: rest) := by
      rw [hkd]; simp
    have hr2some : (matchKindName (kind.data ++ ws₂ ++ c₀ :: rest)).isSome = true :=
      matchKindName_isSome_iff.mpr ⟨kind, ws₂, c₀, rest, rfl, hk, hne₂, hall₂, hcid⟩
    unfold matchPublicDecl
    rcases hfp with rfl | ⟨ws, rfl, hwsne, hws⟩
    · have hline' : line.data =
          "public".data ++ (ws₁ ++ (kind.data ++ ws₂ ++ c₀ :: rest)) := by
        rw [hline]; simp
      rw [dropLit?_eq_some.mpr hline']
      simp only [Option.some_bind]
      have heat : eatSpaces1? (ws₁ ++ (kind.data ++ ws₂ ++ c₀ :: rest)) =
          some (kind.data ++ ws₂ ++ c₀ :: rest) := by
        rw [hkcons]
        exact eatSpaces1?_of_shape hne₁ hall₁ hkc
      rw [heat]
      simp only [Option.some_bind]
      exact afterSpaces_isSome_left hr2some
    · have hline' : line.data = "public".data ++
          (ws₁ ++ ("final".data ++ (ws ++ (kind.data ++ ws₂ ++ c₀ :: rest)))) := by
        rw [hline]; simp
      rw [dropLit?_eq_some.mpr hline']
      simp only [Option.some_bind]
      have heat : eatSpaces1? (ws₁ ++ ("final".data ++ (ws ++ (kind.data ++ ws₂ ++ c₀ :: rest)))) =
          some ("final".data ++ (ws ++ (kind.data ++ ws₂ ++ c₀ :: rest))) := by
        have hfcons : "final".data ++ (ws ++ (kind.data ++ ws₂ ++ c₀ :: rest)) =
            'f' :: ("inal".data ++ (ws ++ (kind.data ++ ws₂ ++ c₀ :: rest))) := by rfl
        rw [hfcons]
        exact eatSpaces1?_of_shape hne₁ hall₁ (by decide)
      rw [heat]
      simp only [Option.some_bind]
      refine afterSpaces_isSome_final ?_ hr2some
      rw [dropLit?_eq_some.mpr rfl]
      simp only [Option.some_bind]
      rw [hkcons]
      exact eatSpaces1?_of_shape hwsne hws hkc

/-! ### The values a successful match produces -/

/-- A successful `tryKind` returns the tried keyword and an
identifier-shaped name. -/
theorem tryKind_values {k : String} {s : List Char} {out : String × String}
    (h : tryKind k s = some out) : out.1 = k ∧ isIdentString out.2 = true := by
  unfold tryKind at h
  cases hd : dropLit? k.data s with
  | none => rw [hd] at h; simp at h
  | some r₁ =>
    rw [hd] at h
    simp only [Option.some_bind] at h
    cases he : eatSpaces1? r₁ with
    | none => rw [he] at h; simp at h
    | some r₂ =>
      rw [he] at h
      simp only [Option.some_bind] at h
      cases r₂ with
      | nil => simp [matchIdent] at h
      | cons c cs =>
        by_cases hc : isIdentStart c = true
        · simp only [matchIdent, hc, if_true, Option.map_some', Option.some.injEq] at h
          refine ⟨by rw [← h], ?_⟩
          rw [← h]
          simp only [isIdentString]
          rw [Bool.and_eq_true]
          refine ⟨hc, ?_⟩
          rw [List.all_eq_true]
          intro x hx
          exact List.mem_takeWhile_imp hx
        · simp only [Bool.not_eq_true] at hc
          simp [matchIdent, hc] at h

/-- A successful alternation match used one of the listed keywords. -/
theorem matchKindFrom_eq_some {ks : List String} {s : List Char} {out : String × String}
    (h : matchKindFrom ks s = some out) : ∃ k ∈ ks, tryKind k s = some out := by
  induction ks with
  | nil => simp [matchKindFrom] at h
  | cons k ks ih =>
    unfold matchKindFrom at h
    cases hk : tryKind k s with
    | some o =>
      rw [hk] at h
      have h' : some o = some out := h
      exact ⟨k, by simp, by rw [hk]; exact h'⟩
    | none =>
      rw [hk] at h
      obtain ⟨q, hq, hqs⟩ := ih h
      exact ⟨q, List.mem_cons_of_mem _ hq, hqs⟩

/-- A successful pattern-tail match is a successful alternation match at
some position. -/
theorem afterSpaces_eq_some {r₂ : List Char} {out : String × String}
    (h : afterSpaces r₂ = some out) : ∃ s, matchKindName s = some out := by
  unfold afterSpaces at h
  split at h
  next r₃ hf =>
    split at h
    next o hm => exact ⟨r₃, by rw [hm, h]⟩
    next hm => exact ⟨r₂, h⟩
  next hf => exact ⟨r₂, h⟩

/-- Every successful `PUBLIC_DECL_RE` match returns a kind from the fixed
nine-keyword set and an identifier-shaped name. -/
theorem matchPublicDecl_values {line : String} {out : String × String}
    (h : matchPublicDecl line = some out) :
    out.1 ∈ kindKeywords ∧ isIdentString out.2 = true := by
  unfold matchPublicDecl at h
  cases hd : dropLit? "public".data line.data with
  | none => rw [hd] at h; simp at h
  | some r₁ =>
    rw [hd] at h
    simp only [Option.some_bind] at h
    cases he : eatSpaces1? r₁ with
    | none => rw [he] at h; simp at h
    | some r₂ =>
      rw [he] at h
      simp only [Option.some_bind] at h
      obtain ⟨s, hs⟩ := afterSpaces_eq_some h
      obtain ⟨k, hk, hks⟩ := matchKindFrom_eq_some hs
      obtain ⟨hout1, hout2⟩ := tryKind_values hks
      exact ⟨hout1 ▸ hk, hout2⟩

/-! ### Structure of the per-file scan -/

/-- Every record the scan loop emits carries the scanned path, a line
number in `[i, i + lines.length)`, and the match result of that very line. -/
theorem scanLinesFrom_mem {p : FsPath} {d : Decl} :
    ∀ {i : Nat} {lines : List String}, d ∈ scanLinesFrom p i lines →
      d.file = p ∧ i ≤ d.line ∧ d.line < i + lines.length ∧
      ∃ hlt : d.line - i < lines.length,
        matchPublicDecl (lines.get ⟨d.line - i, hlt⟩) = some (d.kind, d.name) := by
  intro i lines
  induction lines generalizing i with
  | nil => intro h; simp [scanLinesFrom] at h
  | cons l ls ih =>
    intro h
    unfold scanLinesFrom at h
    cases hm : matchPublicDecl l with
    | some kn =>
      rw [hm] at h
      rcases List.mem_cons.mp h with rfl | h
      · refine ⟨rfl, Nat.le_refl _, by simp, ?_⟩
        have hz : (⟨kn.1, kn.2, p, i⟩ : Decl).line - i = 0 := by simp
        refine ⟨by rw [hz]; simp, ?_⟩
        have hget : (l :: ls).get ⟨(⟨kn.1, kn.2, p, i⟩ : Decl).line - i, by rw [hz]; simp⟩ = l := by
          simp [hz]
        rw [hget, hm]
      · obtain ⟨hf, hle, hlt, hidx, hmatch⟩ := ih h
        have hle' : i ≤ d.line := Nat.le_of_succ_le hle
        refine ⟨hf, hle', by simpa [Nat.add_assoc, Nat.add_comm 1 ls.length] using hlt, ?_⟩
        have hsub : d.line - i = (d.line - (i + 1)) + 1 := by omega
        have hidx' : d.line - i < (l :: ls).length := by
          simp only [List.length_cons]
          omega
        refine ⟨hidx', ?_⟩
        have hget : (l :: ls).get ⟨d.line - i, hidx'⟩ = ls.get ⟨d.line - (i + 1), hidx⟩ := by
          have : (⟨d.line - i, hidx'⟩ : Fin (l :: ls).length) =
              ⟨(d.line - (i + 1)) + 1, by simp; omega⟩ := by
            apply Fin.ext
            simpa using hsub
          rw [this]
          rfl
        rw [hget]
        exact hmatch
    | none =>
      rw [hm] at h
      obtain ⟨hf, hle, hlt, hidx, hmatch⟩ := ih h
      have hle' : i ≤ d.line := Nat.le_of_succ_le hle
      have hne : d.line ≠ i := by
        intro hEq
        omega
      refine ⟨hf, hle', by simpa [Nat.add_assoc, Nat.add_comm 1 ls.length] using hlt, ?_⟩
      have hsub : d.line - i = (d.line - (i + 1)) + 1 := by omega
      have hidx' : d.line - i < (l :: ls).length := by
        simp only [List.length_cons]
        omega
      refine ⟨hidx', ?_⟩
      have hget : (l :: ls).get ⟨d.line - i, hidx'⟩ = ls.get ⟨d.line - (i + 1), hidx⟩ := by
        have : (⟨d.line - i, hidx'⟩ : Fin (l :: ls).length) =
            ⟨(d.line - (i + 1)) + 1, by simp; omega⟩ := by
          apply Fin.ext
          simpa using hsub
        rw [this]
        rfl
      rw [hget]
      exact hmatch

/-- The scan loop emits line numbers in strictly increasing order. -/
theorem scanLinesFrom_pairwise (p : FsPath) :
    ∀ (i : Nat) (lines : List String),
      (scanLinesFrom p i lines).Pairwise fun a b => a.line < b.line := by
  intro i lines
  induction lines generalizing i with
  | nil => simp [scanLinesFrom]
  | cons l ls ih =>
    unfold scanLinesFrom
    cases hm : matchPublicDecl l with
    | some kn =>
      refine List.Pairwise.cons ?_ (ih (i + 1))
      intro b hb
      have := (scanLinesFrom_mem hb).2.1
      simpa using Nat.lt_of_succ_le this
    | none => exact ih (i + 1)

/-- The scan loop emits exactly one record per matching line. -/
theorem scanLinesFrom_length (p : FsPath) :
    ∀ (i : Nat) (lines : List String),
      (scanLinesFrom p i lines).length =
        lines.countP fun l => (matchPublicDecl l).isSome := by
  intro i lines
  induction lines generalizing i with
  | nil => simp [scanLinesFrom]
  | cons l ls ih =>
    unfold scanLinesFrom
    cases hm : matchPublicDecl l with
    | some kn => simp [List.countP_cons, hm, ih (i + 1)]
    | none => simp [List.countP_cons, hm, ih (i + 1)]

/-! ### Deduplication -/

/-- Nothing the dedup loop keeps has a key already in `seen`. -/
theorem mem_dedupFrom_not_seen {seen : List (String × String)} {l : List Decl} {d : Decl} :
    d ∈ dedupFrom seen l → declKey d ∉ seen := by
  induction l generalizing seen with
  | nil => intro h; simp [dedupFrom] at h
  | cons e es ih =>
    intro h
    unfold dedupFrom at h
    by_cases he : declKey e ∈ seen
    · rw [if_pos he] at h
      exact ih h
    · rw [if_neg he] at h
      rcases List.mem_cons.mp h with rfl | h
      · exact he
      · intro hmem
        exact ih h (List.mem_cons_of_mem _ hmem)

/-- The keys of the dedup loop's output are pairwise distinct. -/
theorem dedupFrom_keys_nodup (seen : List (String × String)) (l : List Decl) :
    ((dedupFrom seen l).map declKey).Nodup := by
  induction l generalizing seen with
  | nil => simp [dedupFrom]
  | cons e es ih =>
    unfold dedupFrom
    by_cases he : declKey e ∈ seen
    · rw [if_pos he]; exact ih seen
    · rw [if_neg he]
      simp only [List.map_cons, List.nodup_cons]
      refine ⟨?_, ih _⟩
      intro hmem
      obtain ⟨x, hx, hkey⟩ := List.mem_map.mp hmem
      exact mem_dedupFrom_not_seen hx (by rw [hkey]; exact List.mem_cons_self _ _)

/-- A key occurs in the dedup loop's output iff it occurs in the input and
is not in `seen`. -/
theorem mem_keys_dedupFrom {seen : List (String × String)} {l : List Decl}
    {k : String × String} :
    k ∈ (dedupFrom seen l).map declKey ↔ k ∈ l.map declKey ∧ k ∉ seen := by
  induction l generalizing seen with
  | nil => simp [dedupFrom]
  | cons e es ih =>
    unfold dedupFrom
    by_cases he : declKey e ∈ seen
    · rw [if_pos he, ih]
      simp only [List.map_cons, List.mem_cons]
      constructor
      · rintro ⟨hm, hn⟩
        exact ⟨Or.inr hm, hn⟩
      · rintro ⟨hm | hm, hn⟩
        · exact absurd (hm ▸ he) hn
        · exact ⟨hm, hn⟩
    · rw [if_neg he]
      simp only [List.map_cons, List.mem_cons, ih]
      constructor
      · rintro (rfl | ⟨hm, hn⟩)
        · exact ⟨Or.inl rfl, he⟩
        · exact ⟨Or.inr hm, fun hk => hn (Or.inr hk)⟩
      · rintro ⟨hm, hn⟩
        by_cases hke : k = declKey e
        · exact Or.inl hke
        · right
          rcases hm with hm | hm
          · exact absurd hm hke
          · refine ⟨hm, ?_⟩
            intro hk
            rcases hk with hk | hk
            · exact hke hk
            · exact hn hk

/-- The first occurrence of a key survives the dedup loop. -/
theorem dedupFrom_first_mem {d : Decl} :
    ∀ (pre : List Decl) (seen : List (String × String)) (post : List Decl),
      declKey d ∉ seen → (∀ e ∈ pre, declKey e ≠ declKey d) →
      d ∈ dedupFrom seen (pre ++ d :: post) := by
  intro pre
  induction pre with
  | nil =>
    intro seen post hn _
    simp only [List.nil_append]
    unfold dedupFrom
    rw [if_neg hn]
    simp
  | cons e pre ih =>
    intro seen post hn hpre
    simp only [List.cons_append]
    unfold dedupFrom
    by_cases he : declKey e ∈ seen
    · rw [if_pos he]
      exact ih seen post hn fun x hx => hpre x (List.mem_cons_of_mem _ hx)
    · rw [if_neg he]
      refine List.mem_cons_of_mem _ ?_
      refine ih _ post ?_ fun x hx => hpre x (List.mem_cons_of_mem _ hx)
      intro hk
      rcases List.mem_cons.mp hk with hk | hk
      · exact hpre e (List.mem_cons_self _ _) hk.symm
      · exact hn hk

/-- Everything the dedup loop keeps is the first occurrence of its key. -/
theorem dedupFrom_mem_first {seen : List (String × String)} {l : List Decl} {d : Decl}
    (h : d ∈ dedupFrom seen l) :
    declKey d ∉ seen ∧
      ∃ pre post, l = pre ++ d :: post ∧ ∀ e ∈ pre, declKey e ≠ declKey d := by
  induction l generalizing seen with
  | nil => simp [dedupFrom] at h
  | cons e es ih =>
    unfold dedupFrom at h
    by_cases he : declKey e ∈ seen
    · rw [if_pos he] at h
      obtain ⟨hn, pre, post, heq, hpre⟩ := ih h
      refine ⟨hn, e :: pre, post, by rw [heq, List.cons_append], ?_⟩
      intro x hx
      rcases List.mem_cons.mp hx with rfl | hx
      · exact fun hEq => hn (hEq ▸ he)
      · exact hpre x hx
    · rw [if_neg he] at h
      rcases List.mem_cons.mp h with rfl | h
      · exact ⟨he, [], es, rfl, by simp⟩
      · obtain ⟨hn, pre, post, heq, hpre⟩ := ih h
        have hdk : declKey d ∉ seen := fun hk => hn (List.mem_cons_of_mem _ hk)
        have hde : declKey d ≠ declKey e := fun hEq => hn (hEq ▸ List.mem_cons_self _ _)
        refine ⟨hdk, e :: pre, post, by rw [heq, List.cons_append], ?_⟩
        intro x hx
        rcases List.mem_cons.mp hx with rfl | hx
        · exact hde.symm
        · exact hpre x hx

/-- Characterisation of `dedupByKey`: a record survives iff it is the first
occurrence of its `(kind, name)` key in the input order. -/
theorem mem_dedupByKey_iff {l : List Decl} {d : Decl} :
    d ∈ dedupByKey l ↔
      ∃ pre post, l = pre ++ d :: post ∧ ∀ e ∈ pre, declKey e ≠ declKey d := by
  unfold dedupByKey
  constructor
  · intro h
    exact (dedupFrom_mem_first h).2
  · rintro ⟨pre, post, rfl, hpre⟩
    exact dedupFrom_first_mem pre [] post (by simp) hpre

/-- If every record of a list carries the same key, deduplication keeps
exactly one record. -/
theorem dedupFrom_eq_nil {seen : List (String × String)} {l : List Decl}
    (h : ∀ d ∈ l, declKey d ∈ seen) : dedupFrom seen l = [] := by
  induction l with
  | nil => rfl
  | cons e es ih =>
    unfold dedupFrom
    rw [if_pos (h e (List.mem_cons_self _ _))]
    exact ih fun d hd => h d (List.mem_cons_of_mem _ hd)

theorem dedupByKey_length_one (kk : String × String) {l : List Decl}
    (hne : l ≠ []) (hall : ∀ d ∈ l, declKey d = kk) : (dedupByKey l).length = 1 := by
  cases l with
  | nil => exact absurd rfl hne
  | cons e es =>
    unfold dedupByKey dedupFrom
    rw [if_neg (by simp)]
    have : dedupFrom [declKey e] es = [] := by
      refine dedupFrom_eq_nil ?_
      intro d hd
      have h₁ : declKey d = kk := hall d (List.mem_cons_of_mem _ hd)
      have h₂ : declKey e = kk := hall e (List.mem_cons_self _ _)
      simp [h₁, h₂]
    rw [this]
    rfl

/-! ### Sorting -/

theorem sortDecls_sorted (l : List Decl) : (sortDecls l).Sorted declLe :=
  List.sorted_insertionSort declLe l

theorem sortDecls_perm (l : List Decl) : (sortDecls l).Perm l :=
  List.perm_insertionSort declLe l

/-- The key sequence of a `declLe`-sorted record list is `keyLe`-sorted. -/
theorem sorted_map_key {l : List Decl} (h : l.Sorted declLe) :
    (l.map declKey).Sorted keyLe := by
  rw [List.Sorted, List.pairwise_map]
  exact h

/-- The key list of `dedupByKey` has the same members as the input's. -/
theorem mem_keys_dedupByKey {l : List Decl} {k : String × String} :
    k ∈ (dedupByKey l).map declKey ↔ k ∈ l.map declKey := by
  unfold dedupByKey
  rw [mem_keys_dedupFrom]
  simp

/-- The sorted key sequence of the dedup output depends only on which keys
occur in the input. -/
theorem sortDedup_keys_eq {l₁ l₂ : List Decl}
    (hmem : ∀ k, k ∈ l₁.map declKey ↔ k ∈ l₂.map declKey) :
    (sortDecls (dedupByKey l₁)).map declKey = (sortDecls (dedupByKey l₂)).map declKey := by
  have hn₁ : ((dedupByKey l₁).map declKey).Nodup := dedupFrom_keys_nodup [] l₁
  have hn₂ : ((dedupByKey l₂).map declKey).Nodup := dedupFrom_keys_nodup [] l₂
  have hp₁ : ((sortDecls (dedupByKey l₁)).map declKey).Perm ((dedupByKey l₁).map declKey) :=
    (sortDecls_perm _).map declKey
  have hp₂ : ((sortDecls (dedupByKey l₂)).map declKey).Perm ((dedupByKey l₂).map declKey) :=
    (sortDecls_perm _).map declKey
  have hperm : ((sortDecls (dedupByKey l₁)).map declKey).Perm
      ((sortDecls (dedupByKey l₂)).map declKey) := by
    refine List.perm_of_nodup_nodup_toFinset_eq (hp₁.symm.nodup hn₁) (hp₂.symm.nodup hn₂) ?_
    ext k
    rw [List.mem_toFinset, List.mem_toFinset, hp₁.mem_iff, hp₂.mem_iff,
      mem_keys_dedupByKey, mem_keys_dedupByKey]
    exact hmem k
  exact List.eq_of_perm_of_sorted hperm
    (sorted_map_key (sortDecls_sorted _)) (sorted_map_key (sortDecls_sorted _))

/-- Permuting the files permutes the extracted declaration sequence. -/
theorem moduleDecls_perm {files₁ files₂ : List SwiftFile} (h : files₁.Perm files₂) :
    (moduleDecls files₁).Perm (moduleDecls files₂) :=
  (h.filter _).flatMap_right _

/-- A path with a (case-insensitively) `.build` or `.swiftpm` segment is
excluded. -/
theorem isExcludedPath_of_seg {p : FsPath}
    (h : ∃ seg ∈ p, lowerSeg seg = ".build" ∨ lowerSeg seg = ".swiftpm") :
    isExcludedPath p = true := by
  obtain ⟨seg, hm, hcase⟩ := h
  unfold isExcludedPath
  rw [List.any_eq_true]
  refine ⟨seg, hm, ?_⟩
  rcases hcase with h | h <;> simp [h]

/-! ## The claims -/

/-- C1, counterexample: the line `"\tpublic struct Foo"` satisfies the shape
claimed to be matched (declaration pattern after *any leading whitespace*),
yet the extractor emits nothing for it: `PUBLIC_DECL_RE` starts with
`^public` and is applied with `re.match`, so a line whose first character is
whitespace never matches.  The claimed equivalence is false at this input. -/
theorem claim_c1_counterexample :
    ClaimC1Shape "\tpublic struct Foo" ∧
      matchPublicDecl "\tpublic struct Foo" = none := by
  constructor
  · refine ⟨['\t'], "public struct Foo".data, by decide, by decide,
      [' '], [], "struct", [' '], 'F', ['o', 'o'], by decide, by decide, by decide,
      Or.inl rfl, by decide, by decide, by decide, by decide⟩
  · decide

/-- C1 (amended): the extractor emits a declaration record for a line
exactly when the line begins **at its very start — leading whitespace
prevents the match —** with `public`, whitespace, optionally `final` and
whitespace, one of the fixed declaration-kind keywords, whitespace, and an
identifier-start character (letter or underscore, continued by
letters/digits/underscores); trailing content after the identifier does not
affect the match. -/
theorem claim_c1_match_iff (line : String) :
    (matchPublicDecl line).isSome = true ↔ SpecShapeData line.data :=
  matchPublicDecl_isSome_iff

/-- C2: per module, the aggregated list is unique under (kind, name): the
surviving keys are pairwise distinct yet cover exactly the keys of the
concatenated extraction sequence, and each survivor is precisely the
first-encountered record bearing its key — carrying that occurrence's file
and line, since the whole record survives. -/
theorem claim_c2_dedup (files : List SwiftFile) :
    ((moduleUnique files).map declKey).Nodup ∧
    (∀ k, k ∈ (moduleUnique files).map declKey ↔ k ∈ (moduleDecls files).map declKey) ∧
    (∀ d, d ∈ moduleUnique files ↔
      ∃ pre post, moduleDecls files = pre ++ d :: post ∧
        ∀ e ∈ pre, declKey e ≠ declKey d) :=
  ⟨dedupFrom_keys_nodup [] _, fun _ => mem_keys_dedupByKey, fun _ => mem_dedupByKey_iff⟩

/-- C3: the final listing is sorted by (kind, name) ascending, and its
(kind, name) sequence is invariant under any permutation of the file order. -/
theorem claim_c3_sorted_invariant (files₁ files₂ : List SwiftFile)
    (h : files₁.Perm files₂) :
    (moduleSorted files₁).Sorted declLe ∧
    (moduleSorted files₁).map declKey = (moduleSorted files₂).map declKey := by
  refine ⟨sortDecls_sorted _, sortDedup_keys_eq ?_⟩
  intro k
  exact ((moduleDecls_perm h).map declKey).mem_iff

/-- Witness for C3 at a concrete pair of file lists in swapped order. -/
theorem claim_c3_witness :
    (moduleSorted [⟨["A.swift"], ["public struct B \x7b"]⟩,
        ⟨["B.swift"], ["public struct A \x7b"]⟩]).Sorted declLe ∧
    (moduleSorted [⟨["A.swift"], ["public struct B \x7b"]⟩,
        ⟨["B.swift"], ["public struct A \x7b"]⟩]).map declKey =
      (moduleSorted [⟨["B.swift"], ["public struct A \x7b"]⟩,
        ⟨["A.swift"], ["public struct B \x7b"]⟩]).map declKey :=
  claim_c3_sorted_invariant _ _ (List.Perm.swap _ _ _)

/-- C4: the renderer enumerates exactly `min n 60` declaration entries, and
emits the single overflow summary line reporting `n - 60` exactly when
`n > 60`; `processModule` renders the sorted unique list this way. -/
theorem claim_c4_truncation :
    (∀ unique : List Decl,
      ((renderListing unique).countP OutLine.isEntry = min unique.length 60) ∧
      ((renderListing unique).filter OutLine.isMore =
        if 60 < unique.length then [OutLine.more (unique.length - 60)] else [])) ∧
    ∀ m : Module, (processModule m).listing = renderListing (moduleSorted m.files) := by
  refine ⟨?_, fun m => rfl⟩
  intro unique
  unfold renderListing
  by_cases hemp : unique.isEmpty
  · have : unique = [] := List.isEmpty_iff.mp hemp
    subst this
    simp
  · rw [if_neg hemp]
    constructor
    · rw [List.countP_append, List.countP_map]
      have h₁ : ((unique.take 60).countP (OutLine.isEntry ∘ OutLine.entry)) =
          (unique.take 60).length := by
        rw [List.countP_eq_length]
        intro x _
        rfl
      have h₂ : (if 60 < unique.length then [OutLine.more (unique.length - 60)]
          else []).countP OutLine.isEntry = 0 := by
        split <;> rfl
      rw [h₁, h₂, List.length_take, Nat.add_zero, Nat.min_comm]
    · rw [List.filter_append]
      have h₁ : (((unique.take 60).map OutLine.entry).filter OutLine.isMore) = [] := by
        rw [List.filter_eq_nil_iff]
        intro x hx
        obtain ⟨d, -, rfl⟩ := List.mem_map.mp hx
        simp [OutLine.isMore]
      have h₂ : (if 60 < unique.length then [OutLine.more (unique.length - 60)]
          else []).filter OutLine.isMore =
          (if 60 < unique.length then [OutLine.more (unique.length - 60)] else []) := by
        split
        · rfl
        · rfl
      rw [h₁, h₂, List.nil_append]

/-- C5: a file whose path has a segment equal, case-insensitively, to
`.build` or `.swiftpm` is never yielded by discovery, and so contributes
neither to the eligible-file count nor to the extracted declarations. -/
theorem claim_c5_exclusion (f : SwiftFile)
    (h : ∃ seg ∈ f.path, lowerSeg seg = ".build" ∨ lowerSeg seg = ".swiftpm") :
    (∀ files : List SwiftFile, f ∉ iter_swift_files files) ∧
    (∀ pre post : List SwiftFile,
      iter_swift_files (pre ++ f :: post) = iter_swift_files (pre ++ post) ∧
      (iter_swift_files (pre ++ f :: post)).length =
        (iter_swift_files (pre ++ post)).length ∧
      moduleDecls (pre ++ f :: post) = moduleDecls (pre ++ post)) := by
  have hex : isExcludedPath f.path = true := isExcludedPath_of_seg h
  have hcond : (isSwiftName f.path && !isExcludedPath f.path) = false := by
    rw [hex]
    simp
  constructor
  · intro files hmem
    have hsp := (List.mem_filter.mp hmem).2
    rw [hcond] at hsp
    exact absurd hsp (by simp)
  · intro pre post
    have hiter : iter_swift_files (pre ++ f :: post) = iter_swift_files (pre ++ post) := by
      unfold iter_swift_files
      rw [List.filter_append, List.filter_append, List.filter_cons, hcond]
      simp
    exact ⟨hiter, by rw [hiter], by unfold moduleDecls; rw [hiter]⟩

/-- Witness for C5 at a file under a `.Build` directory. -/
theorem claim_c5_witness :
    iter_swift_files [⟨[".Build", "x.swift"], ["public struct Foo \x7b"]⟩] =
        iter_swift_files ([] ++ []) ∧
      (iter_swift_files [⟨[".Build", "x.swift"], ["public struct Foo \x7b"]⟩]).length =
        (iter_swift_files ([] ++ [])).length ∧
      moduleDecls [⟨[".Build", "x.swift"], ["public struct Foo \x7b"]⟩] =
        moduleDecls ([] ++ []) :=
  (claim_c5_exclusion ⟨[".Build", "x.swift"], ["public struct Foo \x7b"]⟩
    ⟨".Build", by decide, by decide⟩).2 [] []

/-- C6: the per-file scan emits exactly one record per matching line and
none for non-matching lines, with 1-based line numbers in strictly
ascending order, each record reproducing its line's match; a file with no
matching lines yields the empty sequence. -/
theorem claim_c6_scan (p : FsPath) (lines : List String) :
    (scan_file p lines).Pairwise (fun a b => a.line < b.line) ∧
    (∀ d ∈ scan_file p lines, d.file = p ∧ 1 ≤ d.line ∧ d.line ≤ lines.length ∧
      ∃ hlt : d.line - 1 < lines.length,
        matchPublicDecl (lines.get ⟨d.line - 1, hlt⟩) = some (d.kind, d.name)) ∧
    ((scan_file p lines).length = lines.countP fun l => (matchPublicDecl l).isSome) ∧
    ((∀ l ∈ lines, matchPublicDecl l = none) → scan_file p lines = []) := by
  refine ⟨scanLinesFrom_pairwise p 1 lines, ?_, scanLinesFrom_length p 1 lines, ?_⟩
  · intro d hd
    obtain ⟨hf, hle, hlt, hidx, hm⟩ := scanLinesFrom_mem hd
    exact ⟨hf, hle, by omega, hidx, hm⟩
  · intro hnone
    rw [← List.length_eq_zero]
    unfold scan_file
    rw [scanLinesFrom_length p 1 lines, List.countP_eq_zero]
    intro l hl
    rw [hnone l hl]
    simp

/-- Witness for C6: a one-line file with no match scans to the empty list. -/
theorem claim_c6_witness : scan_file ["A.swift"] ["// comment"] = [] :=
  (claim_c6_scan ["A.swift"] ["// comment"]).2.2.2 (by decide)

/-- C7: the per-file scan raises iff the read failure is a non-decoding
one; a decoding failure is recovered by scanning the replacement-decoded
text, and never aborts the scan. -/
theorem claim_c7_read_errors (path : FsPath) (r : ReadResult) :
    ((∃ e, scan_file_read path r = .error e) ↔ ∃ msg, r = .osError msg) ∧
    (∀ ls, r = .decodeError ls → scan_file_read path r = .ok (scan_file path ls)) ∧
    (∀ ls, r = .success ls → scan_file_read path r = .ok (scan_file path ls)) ∧
    (∀ msg, r = .osError msg → scan_file_read path r = .error msg) := by
  cases r <;> simp [scan_file_read]

/-- Witness for C7: a decode failure is recovered, producing a scan of the
replacement text. -/
theorem claim_c7_witness :
    scan_file_read ["A.swift"] (.decodeError ["public struct Foo \x7b"]) =
      .ok (scan_file ["A.swift"] ["public struct Foo \x7b"]) :=
  (claim_c7_read_errors ["A.swift"] (.decodeError ["public struct Foo \x7b"])).2.1 _ rfl

/-- C8: if `<root>/libs/hive/Sources` does not exist, the program exits with
status 1 and a message, producing no report (the `Except.error` carries the
message only); if it exists, the full report is produced and the exit
status is 0. -/
theorem claim_c8_sources_root (root : FsPath) (pathExists : FsPath → Bool)
    (modules : List Module) :
    (pathExists (sourcesRootOf root) = false →
      (∃ e, main root pathExists modules = .error e) ∧
      exitStatus (main root pathExists modules) = 1) ∧
    (pathExists (sourcesRootOf root) = true →
      main root pathExists modules = .ok (modules.map processModule, 0) ∧
      exitStatus (main root pathExists modules) = 0) := by
  constructor
  · intro h
    have hmain : main root pathExists modules =
        .error ("Expected Swift sources at: " ++
          String.intercalate "/" (sourcesRootOf root)) := by
      simp [main, h]
    refine ⟨⟨_, hmain⟩, ?_⟩
    rw [hmain]
    rfl
  · intro h
    have hmain : main root pathExists modules = .ok (modules.map processModule, 0) := by
      simp [main, h]
    refine ⟨hmain, ?_⟩
    rw [hmain]
    rfl

/-- Witness for C8: a filesystem with no sources root aborts with status 1. -/
theorem claim_c8_witness :
    (∃ e, main ["r"] (fun _ => false) [] = .error e) ∧
      exitStatus (main ["r"] (fun _ => false) []) = 1 :=
  (claim_c8_sources_root ["r"] (fun _ => false) []).1 rfl

/-- C9: the reported file count is the length of a second discovery pass
with the same exclusion rule; zero eligible files give count 0 and an empty
declaration list; N ≥ 1 eligible files each scanning to one record of the
same (kind, name) give unique-declaration count 1. -/
theorem claim_c9_filecount (m : Module) :
    ((processModule m).filesScanned = (iter_swift_files m.files).length) ∧
    (iter_swift_files m.files = [] →
      (processModule m).filesScanned = 0 ∧ moduleUnique m.files = [] ∧
      (processModule m).uniqueCount = 0) ∧
    (∀ kk : String × String, iter_swift_files m.files ≠ [] →
      (∀ f ∈ iter_swift_files m.files, ∃ p ln,
        scan_file f.path f.lines = [⟨kk.1, kk.2, p, ln⟩]) →
      (processModule m).uniqueCount = 1) := by
  refine ⟨rfl, ?_, ?_⟩
  · intro h
    have hdecls : moduleDecls m.files = [] := by
      unfold moduleDecls
      rw [h]
      rfl
    have huniq : moduleUnique m.files = [] := by
      unfold moduleUnique
      rw [hdecls]
      rfl
    refine ⟨?_, huniq, ?_⟩
    · show (iter_swift_files m.files).length = 0
      rw [h]
      rfl
    · show (moduleSorted m.files).length = 0
      unfold moduleSorted
      rw [huniq]
      rfl
  · intro kk hne hall
    show (moduleSorted m.files).length = 1
    have hlen : (moduleSorted m.files).length = (moduleUnique m.files).length :=
      (sortDecls_perm _).length_eq
    rw [hlen]
    unfold moduleUnique
    refine dedupByKey_length_one kk ?_ ?_
    · obtain ⟨f, hf⟩ := List.exists_mem_of_ne_nil _ hne
      obtain ⟨p, ln, hscan⟩ := hall f hf
      have : (⟨kk.1, kk.2, p, ln⟩ : Decl) ∈ moduleDecls m.files := by
        unfold moduleDecls
        rw [List.mem_flatMap]
        exact ⟨f, hf, by rw [hscan]; simp⟩
      intro hnil
      rw [hnil] at this
      exact absurd this (List.not_mem_nil _)
    · intro d hd
      unfold moduleDecls at hd
      rw [List.mem_flatMap] at hd
      obtain ⟨f, hf, hdf⟩ := hd
      obtain ⟨p, ln, hscan⟩ := hall f hf
      rw [hscan] at hdf
      rcases List.mem_singleton.mp hdf with rfl
      rfl

/-- Witness for C9: two files declaring the same `struct Foo` give unique
count 1. -/
theorem claim_c9_witness :
    (processModule ⟨"M", [⟨["A.swift"], ["public struct Foo \x7b"]⟩,
      ⟨["B.swift"], ["public struct Foo \x7b"]⟩]⟩).uniqueCount = 1 :=
  (claim_c9_filecount _).2.2 ("struct", "Foo") (by decide) (by
    intro f hf
    have hiter : iter_swift_files [⟨["A.swift"], ["public struct Foo \x7b"]⟩,
        ⟨["B.swift"], ["public struct Foo \x7b"]⟩] =
        [⟨["A.swift"], ["public struct Foo \x7b"]⟩,
          ⟨["B.swift"], ["public struct Foo \x7b"]⟩] := by decide
    rw [hiter] at hf
    fin_cases hf
    · exact ⟨["A.swift"], 1, by decide⟩
    · exact ⟨["B.swift"], 1, by decide⟩)

/-- C10, counterexample: the claim asserts every emitted name matches
`[A-Za-z_][A-Za-z0-9_]*`, but `\w` in `PUBLIC_DECL_RE` is Unicode-aware
(the regex is compiled without `re.ASCII`), so the line
`public struct Fσo` emits a record whose name is `Fσo` — which fails the
claimed ASCII shape at its second character. -/
theorem claim_c10_counterexample :
    scan_file ["A.swift"] ["public struct Fσo"] =
        [⟨"struct", "Fσo", ["A.swift"], 1⟩] ∧
      isAsciiIdentString "Fσo" = false := by
  constructor
  · decide
  · decide

/-- C10 (amended): every emitted record's kind is one of the nine keywords,
and its name starts with a letter or underscore (`[A-Za-z_]`) and continues
with regex word characters — `\w` being Unicode-aware, the name need not
match `[A-Za-z0-9_]*` beyond its first character; the only qualifier
accepted between `public` and the kind keyword is `final`, so
`public static func run() {}` yields no declaration. -/
theorem claim_c10_kinds (p : FsPath) (lines : List String) :
    (∀ d ∈ scan_file p lines, d.kind ∈ kindKeywords ∧ isIdentString d.name = true) ∧
    matchPublicDecl "public static func run() \x7b\x7d" = none := by
  constructor
  · intro d hd
    obtain ⟨-, -, -, hidx, hm⟩ := scanLinesFrom_mem hd
    exact matchPublicDecl_values hm
  · decide

/-- Witness for C10 at a concrete scanned declaration. -/
theorem claim_c10_witness :
    (⟨"struct", "Foo", ["A.swift"], 1⟩ : Decl).kind ∈ kindKeywords ∧
      isIdentString (⟨"struct", "Foo", ["A.swift"], 1⟩ : Decl).name = true :=
  (claim_c10_kinds ["A.swift"] ["public struct Foo \x7b"]).1
    ⟨"struct", "Foo", ["A.swift"], 1⟩ (by decide)

end HiveApiMap
